import Mathlib

/-!
Shallow embedding of the custom Keras layers of `keras_fastqa` (`layers.py`)
and proofs about them.

Conventions of the embedding:

* The batch dimension is dropped: every definition models the computation the
  layer performs on one example of the batch (the TensorFlow ops act
  pointwise along the batch axis).  `sequenceLength` keeps the batch axis
  because its claim is about batches of rows.
* Integer token tensors become `List ℤ`; float tensors become functions
  `ℕ → ℝ` (a vector) or `ℕ → ℕ → ℝ` (position → feature dimension) together
  with explicit size arguments mirroring the static tensor shapes.
* `tf.float32.min` is the exact rational value `-(2^128 - 2^104)` of the most
  negative finite float32.
* float32 `exp` underflows to exactly `0` once its argument is at or below
  `-104` (because `exp (-104) < 2^(-150)`, which rounds to zero even as a
  subnormal); `fexp` models this: it is `Real.exp` above the cutoff and
  exactly `0` at or below it.  This captures the exact-zero behaviour of the
  large-negative-bias masking trick the layers rely on.  Rounding of values
  that do not underflow is abstracted away (they are computed exactly), which
  is why theorems about softmax carry a hypothesis bounding the magnitude of
  the logits (|logit| ≤ 88 keeps every exponential of a valid position
  positive and below float32 overflow, since ln(float32.max) ≈ 88.72).
-/

/-- `SequenceLength` step 1, `tf.cast(x, tf.bool)`: a position is live iff its
token id is nonzero (the pad id is hardwired to `0` by this cast). -/
def toBoolMask (row : List ℤ) : List Bool :=
  row.map (fun t => decide (t ≠ 0))

/-- `SequenceLength.func`: cast the id matrix to bool, cast back to ints and
sum along axis 1, giving one length per example. -/
def sequenceLength (x : List (List ℤ)) : List ℕ :=
  x.map (fun row => ((toBoolMask row).map (fun b => if b then (1 : ℕ) else 0)).sum)

/-- `tf.sequence_mask(len, maxlen)` (boolean dtype): entry `j` is `j < len`. -/
def seqMask (len maxlen : ℕ) : List Bool :=
  (List.range maxlen).map (fun j => decide (j < len))

/-- The float32 cast of the sequence mask, as a function of the position:
`tf.sequence_mask(len, ..., dtype=tf.float32)` at position `j`. -/
def maskVal (len j : ℕ) : ℝ :=
  if j < len then 1 else 0

/-- `WordInQuestionB.func`: pairwise equality of every context position with
every question position, reduced with `reduce_any` over the question axis,
cast to float and multiplied by the float context mask. -/
def wordInQuestionB (question context : List ℤ) (contextLen : ℕ) : List ℚ :=
  (List.range context.length).map (fun c =>
    (if question.any (fun q => decide (context.getD c 0 = q)) then (1 : ℚ) else 0) *
    (if c < contextLen then 1 else 0))

/-- `K.one_hot(idx, depth)` at position `j`: `1` iff `j` equals the index and
the index lies inside `[0, depth)`; an out-of-range index yields an all-zero
row. -/
def oneHot (idx : ℤ) (depth : ℕ) (j : ℕ) : ℚ :=
  if j < depth ∧ idx = j then 1 else 0

/-- `IndexSelect.func`: multiply the features by the transposed one-hot mask
(broadcast over the feature dimension) and sum over the sequence axis. -/
def indexSelect (seqLen : ℕ) (x : ℕ → ℕ → ℚ) (idx : ℤ) : ℕ → ℚ :=
  fun d => ∑ j ∈ Finset.range seqLen, x j d * oneHot idx seqLen j

/-- `tf.reverse_sequence(x, len, seq_axis=1)` on one example: reverse the
first `len` entries, keep the rest in place. -/
def reverseSequence {α : Type} (x : List α) (len : ℕ) : List α :=
  (x.take len).reverse ++ x.drop len

/-- `Backward.call`: reverse the valid part, run the wrapped layer, reverse
the valid part of the result again. -/
def backwardCall {α : Type} (f : List α → List α) (x : List α) (len : ℕ) : List α :=
  reverseSequence (f (reverseSequence x len)) len

/-- Exact value of `tf.float32.min`, the most negative finite float32. -/
def FLOAT32_MIN : ℝ := -(2 ^ 128 - 2 ^ 104)

/-- float32 exponential: underflows to exactly `0` at or below `-104`
(`exp (-104) < 2^(-150)` rounds to zero), exact real exponential above. -/
noncomputable def fexp (y : ℝ) : ℝ :=
  if y ≤ -104 then 0 else Real.exp y

/-- `logits + tf.float32.min * (1 - mask)`: the large-negative-bias masking
applied to a logit vector. -/
def maskedLogit (l : ℕ → ℝ) (len : ℕ) (j : ℕ) : ℝ :=
  l j + FLOAT32_MIN * (1 - maskVal len j)

/-- `tf.nn.softmax` along the sequence axis after large-negative-bias
masking, at position `j` of a row of `maxLen` logits. -/
noncomputable def maskedSoftmax (l : ℕ → ℝ) (len maxLen : ℕ) (j : ℕ) : ℝ :=
  fexp (maskedLogit l len j) / ∑ k ∈ Finset.range maxLen, fexp (maskedLogit l len k)

/-- `WeightedSum` logits: `K.dot(x, weight)` at position `j`, the inner
product of the feature vector with the learned `(dim, 1)` kernel. -/
def wsLogit (dim : ℕ) (w : ℕ → ℝ) (x : ℕ → ℕ → ℝ) (j : ℕ) : ℝ :=
  ∑ d ∈ Finset.range dim, x j d * w d

/-- The softmax weights `alpha` computed inside `WeightedSum.call`. -/
noncomputable def weightedSumAlpha (maxLen dim : ℕ) (w : ℕ → ℝ) (x : ℕ → ℕ → ℝ)
    (len : ℕ) : ℕ → ℝ :=
  maskedSoftmax (wsLogit dim w x) len maxLen

/-- `WeightedSum.call` output: `matmul(alpha, x, transpose_a=True)` squeezed,
i.e. the alpha-weighted sum of the feature vectors. -/
noncomputable def weightedSum (maxLen dim : ℕ) (w : ℕ → ℝ) (x : ℕ → ℕ → ℝ)
    (len : ℕ) (d : ℕ) : ℝ :=
  ∑ j ∈ Finset.range maxLen, weightedSumAlpha maxLen dim w x len j * x j d

/-- `tf.nn.relu`. -/
def relu (y : ℝ) : ℝ := max y 0

/-- `PositionPointer` hidden activations: width-1 `conv1d` with the
`(1, dim, hidden)` kernel plus bias, through relu. -/
def ppHidden (dim : ℕ) (W : ℕ → ℕ → ℝ) (b : ℕ → ℝ) (x : ℕ → ℕ → ℝ)
    (j h : ℕ) : ℝ :=
  relu ((∑ d ∈ Finset.range dim, x j d * W d h) + b h)

/-- `PositionPointer` logits: second width-1 `conv1d` with the
`(1, hidden, 1)` kernel `v`, squeezed to one scalar per position. -/
def ppLogit (dim hidden : ℕ) (W : ℕ → ℕ → ℝ) (b v : ℕ → ℝ) (x : ℕ → ℕ → ℝ)
    (j : ℕ) : ℝ :=
  ∑ h ∈ Finset.range hidden, ppHidden dim W b x j h * v h

/-- `PositionPointer.call` output: masked softmax of the pointer logits. -/
noncomputable def positionPointer (maxLen dim hidden : ℕ) (W : ℕ → ℕ → ℝ)
    (b v : ℕ → ℝ) (x : ℕ → ℕ → ℝ) (len : ℕ) : ℕ → ℝ :=
  maskedSoftmax (ppLogit dim hidden W b v x) len maxLen

/-- `WordInQuestionW` pairwise similarity at (context position `c`, question
position `q`): inner product of the elementwise product of the two feature
vectors with the learned `(dim, 1)` kernel. -/
def wiqwSim (dim : ℕ) (w : ℕ → ℝ) (question context : ℕ → ℕ → ℝ) (c q : ℕ) : ℝ :=
  ∑ d ∈ Finset.range dim, (context c d * question q d) * w d

/-- The combined pair mask `matmul(context_mask, question_mask)`: the outer
product of the two float masks. -/
def pairMask (contextLen questionLen : ℕ) (c q : ℕ) : ℝ :=
  maskVal contextLen c * maskVal questionLen q

/-- `WordInQuestionW` similarity after large-negative-bias pair masking. -/
def wiqwBiased (dim : ℕ) (w : ℕ → ℝ) (question context : ℕ → ℕ → ℝ)
    (questionLen contextLen : ℕ) (c q : ℕ) : ℝ :=
  wiqwSim dim w question context c q +
    FLOAT32_MIN * (1 - pairMask contextLen questionLen c q)

/-- `WordInQuestionW.call` output at context position `c`: softmax of the
biased similarity along axis 1 — which is the CONTEXT axis of the
`(batch, c_len, q_len)` similarity tensor — multiplied by the pair mask and
summed over the question axis (axis 2). -/
noncomputable def wordInQuestionW (cLen qLen dim : ℕ) (w : ℕ → ℝ)
    (question context : ℕ → ℕ → ℝ) (questionLen contextLen : ℕ) (c : ℕ) : ℝ :=
  ∑ q ∈ Finset.range qLen,
    (fexp (wiqwBiased dim w question context questionLen contextLen c q) /
      ∑ c2 ∈ Finset.range cLen,
        fexp (wiqwBiased dim w question context questionLen contextLen c2 q)) *
    pairMask contextLen questionLen c q

/-- The computation described by the spec sentence for `WordInQuestionW`,
with the softmax normalizing over the QUESTION axis instead: softmax of the
biased similarity along the question axis, multiplied by the pair mask and
summed over the question axis. -/
noncomputable def wordInQuestionW_specQuestionAxis (qLen dim : ℕ) (w : ℕ → ℝ)
    (question context : ℕ → ℕ → ℝ) (questionLen contextLen : ℕ) (c : ℕ) : ℝ :=
  ∑ q ∈ Finset.range qLen,
    (fexp (wiqwBiased dim w question context questionLen contextLen c q) /
      ∑ q2 ∈ Finset.range qLen,
        fexp (wiqwBiased dim w question context questionLen contextLen c q2)) *
    pairMask contextLen questionLen c q

/-- Mathematical description of what `WordInQuestionW.call` computes on
well-masked inputs: for a valid context position, the sum over valid question
positions of the similarity normalized over the valid context positions of
the same question column; `0` at padded context positions. -/
noncomputable def wordInQuestionW_spec (dim : ℕ) (w : ℕ → ℝ)
    (question context : ℕ → ℕ → ℝ) (questionLen contextLen : ℕ) (c : ℕ) : ℝ :=
  if c < contextLen then
    ∑ q ∈ Finset.range questionLen,
      fexp (wiqwSim dim w question context c q) /
        ∑ c2 ∈ Finset.range contextLen, fexp (wiqwSim dim w question context c2 q)
  else 0

lemma maskVal_lt {len j : ℕ} (h : j < len) : maskVal len j = 1 := if_pos h

lemma maskVal_ge {len j : ℕ} (h : len ≤ j) : maskVal len j = 0 :=
  if_neg (Nat.not_lt.mpr h)

lemma fexp_of_le {y : ℝ} (h : y ≤ -104) : fexp y = 0 := if_pos h

lemma fexp_of_gt {y : ℝ} (h : -104 < y) : fexp y = Real.exp y :=
  if_neg (not_le.mpr h)

lemma fexp_nonneg (y : ℝ) : 0 ≤ fexp y := by
  unfold fexp
  split
  · exact le_refl 0
  · exact (Real.exp_pos y).le

lemma fexp_pos {y : ℝ} (h : -104 < y) : 0 < fexp y := by
  rw [fexp_of_gt h]
  exact Real.exp_pos y

lemma maskedLogit_valid {l : ℕ → ℝ} {len j : ℕ} (h : j < len) :
    maskedLogit l len j = l j := by
  unfold maskedLogit
  rw [maskVal_lt h]
  ring

lemma maskedLogit_masked {l : ℕ → ℝ} {len j : ℕ} (h : len ≤ j) :
    maskedLogit l len j = l j + FLOAT32_MIN := by
  unfold maskedLogit
  rw [maskVal_ge h]
  ring

lemma fexp_maskedLogit_masked {l : ℕ → ℝ} {len j : ℕ} (hb : l j ≤ 2 ^ 127)
    (h : len ≤ j) : fexp (maskedLogit l len j) = 0 := by
  apply fexp_of_le
  rw [maskedLogit_masked h]
  unfold FLOAT32_MIN
  have hc : (2 : ℝ) ^ 127 + -((2 : ℝ) ^ 128 - 2 ^ 104) ≤ -104 := by norm_num
  linarith

lemma sum_range_split (g : ℕ → ℝ) {m n : ℕ} (h : m ≤ n) :
    ∑ q ∈ Finset.range n, g q
      = (∑ q ∈ Finset.range m, g q) + ∑ q ∈ Finset.Ico m n, g q := by
  rw [Finset.range_eq_Ico, ← Finset.sum_Ico_consecutive g (Nat.zero_le m) h,
    ← Finset.range_eq_Ico]

lemma maskedSoftmax_den_eq {l : ℕ → ℝ} {len maxLen : ℕ} (hmax : len ≤ maxLen)
    (hb : ∀ j, j < maxLen → l j ≤ 2 ^ 127) :
    ∑ k ∈ Finset.range maxLen, fexp (maskedLogit l len k)
      = ∑ k ∈ Finset.range len, fexp (l k) := by
  rw [Finset.range_eq_Ico, ← Finset.sum_Ico_consecutive _ (Nat.zero_le len) hmax]
  have h1 : ∑ k ∈ Finset.Ico 0 len, fexp (maskedLogit l len k)
      = ∑ k ∈ Finset.Ico 0 len, fexp (l k) :=
    Finset.sum_congr rfl (fun k hk => by
      rw [maskedLogit_valid (Finset.mem_Ico.mp hk).2])
  have h2 : ∑ k ∈ Finset.Ico len maxLen, fexp (maskedLogit l len k) = 0 :=
    Finset.sum_eq_zero (fun k hk =>
      fexp_maskedLogit_masked (hb k (Finset.mem_Ico.mp hk).2)
        (Finset.mem_Ico.mp hk).1)
  rw [h1, h2, add_zero, ← Finset.range_eq_Ico]

lemma fexpSum_pos {l : ℕ → ℝ} {len : ℕ} (hlen : 0 < len)
    (hlow : ∀ j, j < len → -104 < l j) :
    0 < ∑ k ∈ Finset.range len, fexp (l k) :=
  Finset.sum_pos (fun k hk => fexp_pos (hlow k (Finset.mem_range.mp hk)))
    (Finset.nonempty_range_iff.mpr (Nat.pos_iff_ne_zero.mp hlen))

lemma maskedSoftmax_sum_valid {l : ℕ → ℝ} {len maxLen : ℕ} (hlen : 0 < len)
    (hmax : len ≤ maxLen) (hb : ∀ j, j < maxLen → |l j| ≤ 88) :
    ∑ j ∈ Finset.range len, maskedSoftmax l len maxLen j = 1 := by
  unfold maskedSoftmax
  rw [← Finset.sum_div]
  have hub : ∀ j, j < maxLen → l j ≤ 2 ^ 127 := fun j hj =>
    le_trans (le_of_abs_le (hb j hj)) (by norm_num)
  have hnum : ∑ j ∈ Finset.range len, fexp (maskedLogit l len j)
      = ∑ j ∈ Finset.range len, fexp (l j) :=
    Finset.sum_congr rfl (fun j hj => by
      rw [maskedLogit_valid (Finset.mem_range.mp hj)])
  have hpos : 0 < ∑ k ∈ Finset.range len, fexp (l k) := by
    apply fexpSum_pos hlen
    intro j hj
    have hbj := hb j (lt_of_lt_of_le hj hmax)
    have := neg_abs_le (l j)
    linarith
  rw [maskedSoftmax_den_eq hmax hub, hnum]
  exact div_self (ne_of_gt hpos)

lemma maskedSoftmax_masked {l : ℕ → ℝ} {len maxLen j : ℕ} (hb : l j ≤ 2 ^ 127)
    (hj : len ≤ j) : maskedSoftmax l len maxLen j = 0 := by
  unfold maskedSoftmax
  rw [fexp_maskedLogit_masked hb hj, zero_div]

/-- Claim C3: in every attention computation (the softmax weights inside
`WeightedSum` and the distribution output by `PositionPointer`), for every
example whose valid length is positive and whose logits stay in float32's
safe exponent range, the weights over valid positions sum to 1 within 1e-5
(here: exactly), and the weight at every masked position is exactly 0. -/
theorem attention_weights_normalized :
    (∀ (maxLen dim : ℕ) (w : ℕ → ℝ) (x : ℕ → ℕ → ℝ) (len : ℕ),
        0 < len → len ≤ maxLen →
        (∀ j, j < maxLen → |wsLogit dim w x j| ≤ 88) →
        |(∑ j ∈ Finset.range len, weightedSumAlpha maxLen dim w x len j) - 1|
            ≤ 1 / 100000 ∧
        ∀ j, len ≤ j → j < maxLen → weightedSumAlpha maxLen dim w x len j = 0) ∧
    (∀ (maxLen dim hidden : ℕ) (W : ℕ → ℕ → ℝ) (b v : ℕ → ℝ)
        (x : ℕ → ℕ → ℝ) (len : ℕ),
        0 < len → len ≤ maxLen →
        (∀ j, j < maxLen → |ppLogit dim hidden W b v x j| ≤ 88) →
        |(∑ j ∈ Finset.range len,
            positionPointer maxLen dim hidden W b v x len j) - 1| ≤ 1 / 100000 ∧
        ∀ j, len ≤ j → j < maxLen →
          positionPointer maxLen dim hidden W b v x len j = 0) := by
  constructor
  · intro maxLen dim w x len hlen hmax hb
    constructor
    · unfold weightedSumAlpha
      rw [maskedSoftmax_sum_valid hlen hmax hb]
      norm_num
    · intro j hj hjm
      unfold weightedSumAlpha
      exact maskedSoftmax_masked
        (le_trans (le_of_abs_le (hb j hjm)) (by norm_num)) hj
  · intro maxLen dim hidden W b v x len hlen hmax hb
    constructor
    · unfold positionPointer
      rw [maskedSoftmax_sum_valid hlen hmax hb]
      norm_num
    · intro j hj hjm
      unfold positionPointer
      exact maskedSoftmax_masked
        (le_trans (le_of_abs_le (hb j hjm)) (by norm_num)) hj

theorem attention_weights_normalized_witness :
    ((0 : ℕ) < 1 ∧ (1 : ℕ) ≤ 2 ∧
      (∀ j, j < 2 → |wsLogit 1 (fun _ => (1 : ℝ)) (fun _ _ => 0) j| ≤ 88) ∧
      (∀ j, j < 2 →
        |ppLogit 1 1 (fun _ _ => (0 : ℝ)) (fun _ => 0) (fun _ => 0)
          (fun _ _ => 0) j| ≤ 88)) ∧
    (|(∑ j ∈ Finset.range 1,
        weightedSumAlpha 2 1 (fun _ => (1 : ℝ)) (fun _ _ => 0) 1 j) - 1|
          ≤ 1 / 100000 ∧
      ∀ j, 1 ≤ j → j < 2 →
        weightedSumAlpha 2 1 (fun _ => (1 : ℝ)) (fun _ _ => 0) 1 j = 0) ∧
    (|(∑ j ∈ Finset.range 1,
        positionPointer 2 1 1 (fun _ _ => (0 : ℝ)) (fun _ => 0) (fun _ => 0)
          (fun _ _ => 0) 1 j) - 1| ≤ 1 / 100000 ∧
      ∀ j, 1 ≤ j → j < 2 →
        positionPointer 2 1 1 (fun _ _ => (0 : ℝ)) (fun _ => 0) (fun _ => 0)
          (fun _ _ => 0) 1 j = 0) := by
  have hw : ∀ j, j < 2 → |wsLogit 1 (fun _ => (1 : ℝ)) (fun _ _ => 0) j| ≤ 88 := by
    intro j hj
    simp [wsLogit]
  have hp : ∀ j, j < 2 →
      |ppLogit 1 1 (fun _ _ => (0 : ℝ)) (fun _ => 0) (fun _ => 0)
        (fun _ _ => 0) j| ≤ 88 := by
    intro j hj
    simp [ppLogit]
  exact ⟨⟨Nat.one_pos, by norm_num, hw, hp⟩,
    attention_weights_normalized.1 2 1 _ _ 1 Nat.one_pos (by norm_num) hw,
    attention_weights_normalized.2 2 1 1 _ _ _ _ 1 Nat.one_pos (by norm_num) hp⟩

/-- Claim C4: the `WeightedSum` output does not depend on the content of
padded positions: two feature inputs that agree at every position strictly
below the example's length (and whose padded-position logits do not exceed
float32's finite range) produce identical pooled outputs. -/
theorem weightedSum_padding_invariant :
    ∀ (maxLen dim : ℕ) (w : ℕ → ℝ) (x x2 : ℕ → ℕ → ℝ) (len : ℕ),
      (∀ j, j < len → ∀ d, x j d = x2 j d) →
      (∀ j, len ≤ j → j < maxLen → wsLogit dim w x j ≤ 2 ^ 127) →
      (∀ j, len ≤ j → j < maxLen → wsLogit dim w x2 j ≤ 2 ^ 127) →
      ∀ d, weightedSum maxLen dim w x len d = weightedSum maxLen dim w x2 len d := by
  intro maxLen dim w x x2 len hagree hpad hpad2 d
  have hlog : ∀ j, j < len → wsLogit dim w x j = wsLogit dim w x2 j := by
    intro j hj
    unfold wsLogit
    exact Finset.sum_congr rfl (fun dd _ => by rw [hagree j hj dd])
  have hnum : ∀ k, k < maxLen →
      fexp (maskedLogit (wsLogit dim w x) len k)
        = fexp (maskedLogit (wsLogit dim w x2) len k) := by
    intro k hk
    by_cases hkl : k < len
    · rw [maskedLogit_valid hkl, maskedLogit_valid hkl, hlog k hkl]
    · push_neg at hkl
      rw [fexp_maskedLogit_masked (hpad k hkl hk) hkl,
        fexp_maskedLogit_masked (hpad2 k hkl hk) hkl]
  have hden : (∑ k ∈ Finset.range maxLen, fexp (maskedLogit (wsLogit dim w x) len k))
      = ∑ k ∈ Finset.range maxLen, fexp (maskedLogit (wsLogit dim w x2) len k) :=
    Finset.sum_congr rfl (fun k hk => hnum k (Finset.mem_range.mp hk))
  unfold weightedSum
  apply Finset.sum_congr rfl
  intro j hj
  have hjm := Finset.mem_range.mp hj
  by_cases hjl : j < len
  · have halpha : weightedSumAlpha maxLen dim w x len j
        = weightedSumAlpha maxLen dim w x2 len j := by
      unfold weightedSumAlpha maskedSoftmax
      rw [hnum j hjm, hden]
    rw [halpha, hagree j hjl d]
  · push_neg at hjl
    have hz : weightedSumAlpha maxLen dim w x len j = 0 := by
      unfold weightedSumAlpha
      exact maskedSoftmax_masked (hpad j hjl hjm) hjl
    have hz2 : weightedSumAlpha maxLen dim w x2 len j = 0 := by
      unfold weightedSumAlpha
      exact maskedSoftmax_masked (hpad2 j hjl hjm) hjl
    rw [hz, hz2, zero_mul, zero_mul]

theorem weightedSum_padding_invariant_witness :
    ((∀ j, j < 1 → ∀ d : ℕ, (0 : ℝ)
        = (fun (j2 : ℕ) (_ : ℕ) => if j2 = 1 then (5 : ℝ) else 0) j d) ∧
      (∀ j, 1 ≤ j → j < 2 → wsLogit 1 (fun _ => (1 : ℝ)) (fun _ _ => 0) j ≤ 2 ^ 127) ∧
      (∀ j, 1 ≤ j → j < 2 →
        wsLogit 1 (fun _ => (1 : ℝ))
          (fun j2 _ => if j2 = 1 then 5 else 0) j ≤ 2 ^ 127)) ∧
    ∀ d, weightedSum 2 1 (fun _ => (1 : ℝ)) (fun _ _ => 0) 1 d
      = weightedSum 2 1 (fun _ => (1 : ℝ)) (fun j _ => if j = 1 then 5 else 0) 1 d := by
  have hagree : ∀ j, j < 1 → ∀ d : ℕ,
      (fun (_ : ℕ) (_ : ℕ) => (0 : ℝ)) j d
        = (fun (j2 : ℕ) (_ : ℕ) => if j2 = 1 then (5 : ℝ) else 0) j d := by
    intro j hj d
    interval_cases j
    norm_num
  have hpad : ∀ j, 1 ≤ j → j < 2 →
      wsLogit 1 (fun _ => (1 : ℝ)) (fun _ _ => 0) j ≤ 2 ^ 127 := by
    intro j hj hj2
    norm_num [wsLogit]
  have hpad2 : ∀ j, 1 ≤ j → j < 2 →
      wsLogit 1 (fun _ => (1 : ℝ)) (fun j2 _ => if j2 = 1 then 5 else 0) j ≤ 2 ^ 127 := by
    intro j hj hj2
    interval_cases j
    norm_num [wsLogit]
  exact ⟨⟨hagree, hpad, hpad2⟩,
    weightedSum_padding_invariant 2 1 _ _ _ 1 hagree hpad hpad2⟩

/-- Claim C6: for an example of valid length 1, `PositionPointer` outputs a
distribution that is exactly 1 at position 0 and exactly 0 at every other
position (given logits in float32's safe exponent range). -/
theorem positionPointer_length_one :
    ∀ (maxLen dim hidden : ℕ) (W : ℕ → ℕ → ℝ) (b v : ℕ → ℝ) (x : ℕ → ℕ → ℝ),
      0 < maxLen →
      (∀ j, j < maxLen → |ppLogit dim hidden W b v x j| ≤ 88) →
      positionPointer maxLen dim hidden W b v x 1 0 = 1 ∧
      ∀ j, 1 ≤ j → j < maxLen →
        positionPointer maxLen dim hidden W b v x 1 j = 0 := by
  intro maxLen dim hidden W b v x hmax hb
  constructor
  · have h1 := @maskedSoftmax_sum_valid (ppLogit dim hidden W b v x) 1 maxLen
      Nat.one_pos hmax hb
    rw [Finset.sum_range_one] at h1
    exact h1
  · intro j hj hjm
    unfold positionPointer
    exact maskedSoftmax_masked
      (le_trans (le_of_abs_le (hb j hjm)) (by norm_num)) hj

theorem positionPointer_length_one_witness :
    ((0 : ℕ) < 2 ∧
      (∀ j, j < 2 →
        |ppLogit 1 1 (fun _ _ => (0 : ℝ)) (fun _ => 0) (fun _ => 0)
          (fun _ _ => 0) j| ≤ 88)) ∧
    (positionPointer 2 1 1 (fun _ _ => (0 : ℝ)) (fun _ => 0) (fun _ => 0)
        (fun _ _ => 0) 1 0 = 1 ∧
      ∀ j, 1 ≤ j → j < 2 →
        positionPointer 2 1 1 (fun _ _ => (0 : ℝ)) (fun _ => 0) (fun _ => 0)
          (fun _ _ => 0) 1 j = 0) := by
  have hb : ∀ j, j < 2 →
      |ppLogit 1 1 (fun _ _ => (0 : ℝ)) (fun _ => 0) (fun _ => 0)
        (fun _ _ => 0) j| ≤ 88 := by
    intro j hj
    simp [ppLogit]
  exact ⟨⟨by norm_num, hb⟩,
    positionPointer_length_one 2 1 1 _ _ _ _ (by norm_num) hb⟩

/-- Counterexample to claim C1: `tf.nn.softmax(similarity, axis=1)` in
`WordInQuestionW.call` normalizes over axis 1 of the
`(batch, c_len, q_len)` similarity tensor, which is the CONTEXT axis, not
the question axis.  With one valid question position, two valid context
positions and all-zero features, the layer outputs 1/2 at context position 0
while the question-axis computation described by the claim outputs 1. -/
theorem wordInQuestionW_question_axis_counterexample :
    wordInQuestionW 2 1 1 (fun _ => (1 : ℝ)) (fun _ _ => 0) (fun _ _ => 0) 1 2 0
      ≠ wordInQuestionW_specQuestionAxis 1 1 (fun _ => (1 : ℝ)) (fun _ _ => 0)
          (fun _ _ => 0) 1 2 0 := by
  have hfexp0 : fexp 0 = 1 := by
    rw [fexp_of_gt (by norm_num)]
    exact Real.exp_zero
  unfold wordInQuestionW wordInQuestionW_specQuestionAxis wiqwBiased wiqwSim
    pairMask maskVal
  norm_num [Finset.sum_range_succ, Finset.sum_range_one, hfexp0]

/-- Claim C1 (amended): `WordInQuestionW` masks each invalid
(question, context) pair by adding a large negative bias to its pairwise
similarity, normalizes the masked similarities with softmax over the
CONTEXT axis, multiplies by the pair mask and sums over the question axis,
yielding one weight per context position: for similarities in float32's
safe exponent range this equals, at each valid context position, the sum
over valid question positions of the similarity normalized over the valid
context positions of that question column, and 0 at padded positions. -/
theorem wordInQuestionW_context_axis :
    ∀ (cLen qLen dim : ℕ) (w : ℕ → ℝ) (question context : ℕ → ℕ → ℝ)
      (questionLen contextLen : ℕ),
      contextLen ≤ cLen → questionLen ≤ qLen →
      (∀ c, c < cLen → ∀ q, q < qLen →
        |wiqwSim dim w question context c q| ≤ 88) →
      ∀ c, c < cLen →
        wordInQuestionW cLen qLen dim w question context questionLen contextLen c
          = wordInQuestionW_spec dim w question context questionLen contextLen c := by
  intro cLen qLen dim w question context questionLen contextLen hcl hql hb c hc
  have hbml : ∀ q, q < questionLen → ∀ c2,
      wiqwBiased dim w question context questionLen contextLen c2 q
        = maskedLogit (fun c3 => wiqwSim dim w question context c3 q)
            contextLen c2 := by
    intro q hq c2
    unfold wiqwBiased maskedLogit pairMask
    rw [maskVal_lt hq]
    ring
  have hden : ∀ q, q < questionLen →
      (∑ c2 ∈ Finset.range cLen,
          fexp (wiqwBiased dim w question context questionLen contextLen c2 q))
        = ∑ c2 ∈ Finset.range contextLen,
            fexp (wiqwSim dim w question context c2 q) := by
    intro q hq
    have h1 : ∀ c2 ∈ Finset.range cLen,
        fexp (wiqwBiased dim w question context questionLen contextLen c2 q)
          = fexp (maskedLogit (fun c3 => wiqwSim dim w question context c3 q)
              contextLen c2) := fun c2 _ => by rw [hbml q hq c2]
    rw [Finset.sum_congr rfl h1]
    exact maskedSoftmax_den_eq hcl (fun c2 hc2 =>
      le_trans (le_of_abs_le (hb c2 hc2 q (lt_of_lt_of_le hq hql))) (by norm_num))
  unfold wordInQuestionW wordInQuestionW_spec
  by_cases hcv : c < contextLen
  · rw [if_pos hcv]
    rw [sum_range_split _ hql]
    have h2 : ∑ q ∈ Finset.Ico questionLen qLen,
        (fexp (wiqwBiased dim w question context questionLen contextLen c q) /
          ∑ c2 ∈ Finset.range cLen,
            fexp (wiqwBiased dim w question context questionLen contextLen c2 q)) *
        pairMask contextLen questionLen c q = 0 := by
      apply Finset.sum_eq_zero
      intro q hq
      have hm : maskVal questionLen q = 0 := maskVal_ge (Finset.mem_Ico.mp hq).1
      unfold pairMask
      rw [hm, mul_zero, mul_zero]
    rw [h2, add_zero]
    apply Finset.sum_congr rfl
    intro q hq
    have hql2 := Finset.mem_range.mp hq
    have hpm : pairMask contextLen questionLen c q = 1 := by
      unfold pairMask
      rw [maskVal_lt hcv, maskVal_lt hql2]
      norm_num
    rw [hpm, mul_one, hden q hql2, hbml q hql2 c, maskedLogit_valid hcv]
  · rw [if_neg hcv]
    push_neg at hcv
    apply Finset.sum_eq_zero
    intro q hq
    have hm : maskVal contextLen c = 0 := maskVal_ge hcv
    unfold pairMask
    rw [hm, zero_mul, mul_zero]

theorem wordInQuestionW_context_axis_witness :
    ((1 : ℕ) ≤ 2 ∧ (1 : ℕ) ≤ 1 ∧
      (∀ c, c < 2 → ∀ q, q < 1 →
        |wiqwSim 1 (fun _ => (1 : ℝ)) (fun _ _ => 0) (fun _ _ => 0) c q| ≤ 88)) ∧
    ∀ c, c < 2 →
      wordInQuestionW 2 1 1 (fun _ => (1 : ℝ)) (fun _ _ => 0) (fun _ _ => 0) 1 1 c
        = wordInQuestionW_spec 1 (fun _ => (1 : ℝ)) (fun _ _ => 0)
            (fun _ _ => 0) 1 1 c := by
  have hb : ∀ c, c < 2 → ∀ q, q < 1 →
      |wiqwSim 1 (fun _ => (1 : ℝ)) (fun _ _ => 0) (fun _ _ => 0) c q| ≤ 88 := by
    intro c hc q hq
    simp [wiqwSim]
  exact ⟨⟨by norm_num, le_refl 1, hb⟩,
    wordInQuestionW_context_axis 2 1 1 _ _ _ 1 1 (by norm_num) (le_refl 1) hb⟩

lemma reverseSequence_length {α : Type} (x : List α) (len : ℕ) :
    (reverseSequence x len).length = x.length := by
  unfold reverseSequence
  rw [List.length_append, List.length_reverse, List.length_take, List.length_drop]
  omega

/-- Claim C7: `tf.reverse_sequence` reverses only the valid length-`len`
part of the sequence (positions at or beyond `len` are left in place, so
padding stays trailing), and `Backward.call` with an identity wrapped layer
restores the input exactly — in particular, no valid position is
corrupted. -/
theorem backward_length_aware_reverse :
    ∀ (α : Type) (d0 : α) (x : List α) (len : ℕ), len ≤ x.length →
      (∀ j, len ≤ j → (reverseSequence x len).getD j d0 = x.getD j d0) ∧
      (∀ j, j < len →
        (reverseSequence x len).getD j d0 = x.getD (len - 1 - j) d0) ∧
      backwardCall id x len = x := by
  intro α d0 x len hlen
  have hA : ((x.take len).reverse).length = len := by
    rw [List.length_reverse, List.length_take]
    omega
  refine ⟨?_, ?_, ?_⟩
  · intro j hj
    unfold reverseSequence
    rw [List.getD_eq_getElem?_getD,
      List.getElem?_append_right (by rw [hA]; exact hj), hA,
      List.getElem?_drop, List.getD_eq_getElem?_getD]
    have hje : len + (j - len) = j := by omega
    rw [hje]
  · intro j hj
    unfold reverseSequence
    rw [List.getD_eq_getElem?_getD,
      List.getElem?_append_left (by rw [hA]; exact hj),
      List.getElem?_reverse (by rw [List.length_take]; omega),
      List.length_take, Nat.min_eq_left hlen,
      List.getElem?_take_of_lt (by omega), List.getD_eq_getElem?_getD]
  · unfold backwardCall
    rw [id_eq]
    unfold reverseSequence
    rw [List.take_left' hA, List.drop_left' hA, List.reverse_reverse,
      List.take_append_drop]

theorem backward_length_aware_reverse_witness :
    (3 : ℕ) ≤ ([10, 20, 30, 40, 50] : List ℤ).length ∧
    ((∀ j, 3 ≤ j →
        (reverseSequence ([10, 20, 30, 40, 50] : List ℤ) 3).getD j 0
          = ([10, 20, 30, 40, 50] : List ℤ).getD j 0) ∧
      (∀ j, j < 3 →
        (reverseSequence ([10, 20, 30, 40, 50] : List ℤ) 3).getD j 0
          = ([10, 20, 30, 40, 50] : List ℤ).getD (3 - 1 - j) 0) ∧
      backwardCall id ([10, 20, 30, 40, 50] : List ℤ) 3 = [10, 20, 30, 40, 50]) :=
  ⟨by decide, backward_length_aware_reverse ℤ 0 [10, 20, 30, 40, 50] 3 (by decide)⟩

lemma seqMask_getD (L maxlen j : ℕ) (hj : j < maxlen) :
    (seqMask L maxlen).getD j false = decide (j < L) := by
  unfold seqMask
  rw [List.getD_eq_getElem?_getD, List.getElem?_map, List.getElem?_range hj]
  rfl

lemma seqMask_count (L maxlen : ℕ) : (seqMask L maxlen).count true = min L maxlen := by
  induction maxlen with
  | zero => simp [seqMask]
  | succ n ih =>
    unfold seqMask
    rw [List.range_succ, List.map_append, List.count_append]
    unfold seqMask at ih
    rw [ih]
    by_cases h : n < L
    · have hd : decide (n < L) = true := decide_eq_true h
      simp only [List.map_cons, List.map_nil, hd]
      rw [List.count_singleton]
      simp only [beq_self_eq_true, if_true]
      omega
    · have hd : decide (n < L) = false := decide_eq_false h
      simp only [List.map_cons, List.map_nil, hd]
      rw [List.count_singleton]
      norm_num
      omega

/-- Claim C8: the boolean mask derived from a valid length `L ≤ maxlen` has
shape `maxlen`, is true exactly at the positions strictly below `L` (hence
exactly `L` true entries, all among the first `L` positions), and its
float32 cast is the 0/1 mask the attention layers multiply with. -/
theorem sequence_mask_characterization :
    ∀ (L maxlen : ℕ), L ≤ maxlen →
      (seqMask L maxlen).length = maxlen ∧
      (∀ j, ((seqMask L maxlen).getD j false = true ↔ j < L)) ∧
      (seqMask L maxlen).count true = L ∧
      (∀ j, j < maxlen →
        maskVal L j = if (seqMask L maxlen).getD j false then 1 else 0) := by
  intro L maxlen hL
  have hlen : (seqMask L maxlen).length = maxlen := by
    unfold seqMask
    rw [List.length_map, List.length_range]
  refine ⟨hlen, ?_, ?_, ?_⟩
  · intro j
    by_cases hj : j < maxlen
    · rw [seqMask_getD L maxlen j hj]
      simp
    · rw [List.getD_eq_default _ _ (by omega : (seqMask L maxlen).length ≤ j)]
      constructor
      · intro h
        exact absurd h Bool.false_ne_true
      · intro h
        omega
  · rw [seqMask_count]
    omega
  · intro j hj
    rw [seqMask_getD L maxlen j hj]
    unfold maskVal
    by_cases h : j < L
    · rw [if_pos h]
      simp [h]
    · rw [if_neg h]
      simp [h]

theorem sequence_mask_characterization_witness :
    (2 : ℕ) ≤ 5 ∧
    ((seqMask 2 5).length = 5 ∧
      (∀ j, ((seqMask 2 5).getD j false = true ↔ j < 2)) ∧
      (seqMask 2 5).count true = 2 ∧
      (∀ j, j < 5 → maskVal 2 j = if (seqMask 2 5).getD j false then 1 else 0)) :=
  ⟨by decide, sequence_mask_characterization 2 5 (by decide)⟩

lemma wordInQuestionB_getD (question context : List ℤ) (contextLen c : ℕ)
    (hc : c < context.length) :
    (wordInQuestionB question context contextLen).getD c 0
      = (if question.any (fun q => decide (context.getD c 0 = q)) then (1 : ℚ) else 0) *
        (if c < contextLen then 1 else 0) := by
  unfold wordInQuestionB
  rw [List.getD_eq_getElem?_getD, List.getElem?_map, List.getElem?_range hc]
  rfl

/-- Counterexample to claim C2: `WordInQuestionB` never receives the
question's valid length — its `reduce_any` compares the context token with
EVERY question position, padding included.  With question ids `[5, 0]`
(valid length 1), context ids `[0]` and context length 1, the context token
`0` occurs nowhere in the valid question span, yet the layer outputs 1
because it matches the question's padding token. -/
theorem wordInQuestionB_valid_span_counterexample :
    ¬ (∀ (question context : List ℤ) (questionLen contextLen : ℕ),
        ∀ c, c < context.length → c < contextLen →
          (∀ i, i < questionLen → question.getD i 0 ≠ context.getD c 0) →
          (wordInQuestionB question context contextLen).getD c 0 = 0) := by
  intro h
  have h2 := h [5, 0] [0] 1 1 0 (by decide) (by decide) (by decide)
  have hv : (wordInQuestionB [5, 0] [0] 1).getD 0 0 = 1 := by
    unfold wordInQuestionB
    norm_num
  rw [hv] at h2
  exact absurd h2 (by norm_num)

/-- Claim C2 (amended): at a context position within the context's valid
length whose token id equals some question token id at ANY question
position (valid or padded), `WordInQuestionB` outputs 1; if the token
occurs nowhere in the whole question sequence it outputs 0; and at every
padded context position it outputs 0 regardless of any match. -/
theorem wordInQuestionB_any_position_match :
    ∀ (question context : List ℤ) (contextLen : ℕ) (c : ℕ), c < context.length →
      ((c < contextLen → (∃ t ∈ question, context.getD c 0 = t) →
          (wordInQuestionB question context contextLen).getD c 0 = 1) ∧
        ((∀ t ∈ question, context.getD c 0 ≠ t) →
          (wordInQuestionB question context contextLen).getD c 0 = 0) ∧
        (contextLen ≤ c →
          (wordInQuestionB question context contextLen).getD c 0 = 0)) := by
  intro question context contextLen c hc
  refine ⟨?_, ?_, ?_⟩
  · intro hcl hmatch
    obtain ⟨t, ht, he⟩ := hmatch
    have hany : question.any (fun q => decide (context.getD c 0 = q)) = true := by
      rw [List.any_eq_true]
      exact ⟨t, ht, decide_eq_true he⟩
    rw [wordInQuestionB_getD question context contextLen c hc, hany, if_pos hcl]
    norm_num
  · intro hnone
    have hany : question.any (fun q => decide (context.getD c 0 = q)) = false := by
      rw [List.any_eq_false]
      intro t ht
      simp only [decide_eq_true_eq]
      exact hnone t ht
    rw [wordInQuestionB_getD question context contextLen c hc, hany]
    norm_num
  · intro hge
    rw [wordInQuestionB_getD question context contextLen c hc,
      if_neg (Nat.not_lt.mpr hge), mul_zero]

theorem wordInQuestionB_any_position_match_witness :
    (1 : ℕ) < ([7, 5, 9] : List ℤ).length ∧
    ((1 < 2 → (∃ t ∈ ([5, 0] : List ℤ), ([7, 5, 9] : List ℤ).getD 1 0 = t) →
        (wordInQuestionB [5, 0] [7, 5, 9] 2).getD 1 0 = 1) ∧
      ((∀ t ∈ ([5, 0] : List ℤ), ([7, 5, 9] : List ℤ).getD 1 0 ≠ t) →
        (wordInQuestionB [5, 0] [7, 5, 9] 2).getD 1 0 = 0) ∧
      (2 ≤ 1 → (wordInQuestionB [5, 0] [7, 5, 9] 2).getD 1 0 = 0)) :=
  ⟨by decide, wordInQuestionB_any_position_match [5, 0] [7, 5, 9] 2 1 (by decide)⟩

/-- Right padding: in every row, once a pad token occurs, every later
position is also the pad token (all non-pad tokens precede all pads). -/
def rightPadded (x : List (List ℤ)) (padId : ℤ) : Prop :=
  ∀ row ∈ x, ∀ j, j < row.length → ∀ i, i < j →
    row.getD i padId = padId → row.getD j padId = padId

/-- Counterexample to claim C5: `SequenceLength` has no pad-id parameter;
`tf.cast(x, tf.bool)` hardwires the pad id to 0.  For the designated pad-id
7 and the right-padded batch `[[7, 7]]` the claim demands length 0, but the
layer returns 2 because both ids are nonzero. -/
theorem sequenceLength_padid_counterexample :
    ¬ (∀ (x : List (List ℤ)) (padId : ℤ), rightPadded x padId →
        sequenceLength x
          = x.map (fun r => r.countP (fun t => decide (t ≠ padId)))) := by
  intro h
  have hrp : rightPadded [[7, 7]] 7 := by
    unfold rightPadded
    decide
  have h2 := h [[7, 7]] 7 hrp
  exact absurd h2 (by decide)

lemma row_len_eq_countP (row : List ℤ) :
    ((toBoolMask row).map (fun b => if b then (1 : ℕ) else 0)).sum
      = row.countP (fun t => decide (t ≠ 0)) := by
  induction row with
  | nil => rfl
  | cons t rest ih =>
    unfold toBoolMask
    unfold toBoolMask at ih
    simp only [List.map_cons, List.sum_cons, List.countP_cons, ih]
    by_cases h : t = 0
    · simp [h]
    · simp [h, Nat.add_comm]

/-- Right padding of a single row with pad id 0. -/
def rowRightPadded (row : List ℤ) : Prop :=
  ∀ j, j < row.length → ∀ i, i < j → row.getD i 0 = 0 → row.getD j 0 = 0

lemma row_countP_eq_takeWhile (row : List ℤ) (h : rowRightPadded row) :
    row.countP (fun t => decide (t ≠ 0))
      = (row.takeWhile (fun t => decide (t ≠ 0))).length := by
  induction row with
  | nil => rfl
  | cons t rest ih =>
    by_cases ht : t = 0
    · subst ht
      have hall : ∀ a ∈ rest, ¬ ((fun t : ℤ => decide (t ≠ 0)) a = true) := by
        intro a ha
        obtain ⟨i, hi, hget⟩ := List.mem_iff_getElem.mp ha
        have hz := h (i + 1) (by simp only [List.length_cons]; omega) 0
          (Nat.succ_pos i) (by simp)
        rw [List.getD_cons_succ, List.getD_eq_getElem _ _ hi, hget] at hz
        simp [hz]
      rw [List.countP_cons, List.countP_eq_zero.mpr hall, List.takeWhile_cons]
      simp
    · have hrest : rowRightPadded rest := by
        intro j hj i hi hpad
        have hz := h (j + 1) (by simp only [List.length_cons]; omega) (i + 1)
          (by omega) (by rw [List.getD_cons_succ]; exact hpad)
        rw [List.getD_cons_succ] at hz
        exact hz
      have hpt : (fun t : ℤ => decide (t ≠ 0)) t = true := decide_eq_true ht
      rw [List.countP_cons, List.takeWhile_cons, if_pos hpt, if_pos hpt,
        ih hrest, List.length_cons]

/-- Claim C5 (amended): the pad id is hardwired to 0 (`SequenceLength` takes
no pad-id parameter).  For every right-padded batch with pad id 0, the layer
returns per example the count of nonzero positions, which under right
padding is the length of the leading non-pad run. -/
theorem sequenceLength_zero_padid :
    ∀ (x : List (List ℤ)), rightPadded x 0 →
      sequenceLength x = x.map (fun r => r.countP (fun t => decide (t ≠ 0))) ∧
      sequenceLength x
        = x.map (fun r => (r.takeWhile (fun t => decide (t ≠ 0))).length) := by
  intro x hx
  constructor
  · unfold sequenceLength
    apply List.map_congr_left
    intro row hrow
    exact row_len_eq_countP row
  · unfold sequenceLength
    apply List.map_congr_left
    intro row hrow
    rw [row_len_eq_countP row]
    apply row_countP_eq_takeWhile
    intro j hj i hi
    exact hx row hrow j hj i hi

theorem sequenceLength_zero_padid_witness :
    rightPadded [[3, 5, 0], [2, 0, 0]] 0 ∧
    (sequenceLength [[3, 5, 0], [2, 0, 0]]
        = [[3, 5, 0], [2, 0, 0]].map (fun r => r.countP (fun t => decide (t ≠ 0))) ∧
      sequenceLength [[3, 5, 0], [2, 0, 0]]
        = [[3, 5, 0], [2, 0, 0]].map
            (fun r => (r.takeWhile (fun t => decide (t ≠ 0))).length)) :=
  ⟨by unfold rightPadded; decide,
    sequenceLength_zero_padid _ (by unfold rightPadded; decide)⟩

/-- Claim C9: `SequenceLength` hardwires the pad id to 0 and returns, with no
precondition, the count of nonzero entries of each row — a count invariant
under any permutation of the row's entries. -/
theorem sequenceLength_nonzero_count :
    ∀ (x : List (List ℤ)),
      sequenceLength x = x.map (fun r => r.countP (fun t => decide (t ≠ 0))) ∧
      ∀ (r s : List ℤ), r.Perm s → sequenceLength [r] = sequenceLength [s] := by
  intro x
  constructor
  · unfold sequenceLength
    apply List.map_congr_left
    intro row hrow
    exact row_len_eq_countP row
  · intro r s hperm
    unfold sequenceLength
    simp only [List.map_cons, List.map_nil]
    rw [row_len_eq_countP r, row_len_eq_countP s,
      hperm.countP_eq (fun t => decide (t ≠ 0))]

theorem sequenceLength_nonzero_count_witness :
    ([4, 0, 9] : List ℤ).Perm [9, 4, 0] ∧
    sequenceLength [[4, 0, 9]] = sequenceLength [[9, 4, 0]] :=
  ⟨by decide, (sequenceLength_nonzero_count []).2 [4, 0, 9] [9, 4, 0] (by decide)⟩

/-- Claim C10: `IndexSelect` is total: it is a function that returns a value
for every index, and for an example whose index lies outside `[0, seq_len)`
the one-hot mask is all-zero and the selected feature vector is the zero
vector rather than an error. -/
theorem indexSelect_total_out_of_range_zero :
    ∀ (seqLen : ℕ) (x : ℕ → ℕ → ℚ) (idx : ℤ),
      (idx < 0 ∨ (seqLen : ℤ) ≤ idx) →
      (∀ j, j < seqLen → oneHot idx seqLen j = 0) ∧
      (∀ d, indexSelect seqLen x idx d = 0) := by
  intro seqLen x idx hout
  have hzero : ∀ j, j < seqLen → oneHot idx seqLen j = 0 := by
    intro j hj
    unfold oneHot
    rw [if_neg]
    intro hcon
    obtain ⟨hj2, heq⟩ := hcon
    rcases hout with hneg | hge
    · omega
    · omega
  refine ⟨hzero, ?_⟩
  intro d
  unfold indexSelect
  apply Finset.sum_eq_zero
  intro j hj
  rw [hzero j (Finset.mem_range.mp hj), mul_zero]

theorem indexSelect_total_out_of_range_zero_witness :
    ((5 : ℤ) < 0 ∨ ((3 : ℕ) : ℤ) ≤ 5) ∧
    ((∀ j, j < 3 → oneHot 5 3 j = 0) ∧
      (∀ d, indexSelect 3 (fun j d => (j : ℚ) + d) 5 d = 0)) :=
  ⟨Or.inr (by norm_num),
    indexSelect_total_out_of_range_zero 3 _ 5 (Or.inr (by norm_num))⟩
